import Mathlib

/-!
Verification of the frame-to-ASCII conversion core of `video2ascii`
(`src/main.cpp`): the glyph mapper, the colour encoder, the frame
converter, the rate-limited progress tracker, and the parallel batch
dispatcher.

Modelling conventions.
* `double`/`float` values are modelled as exact rationals (`ℚ`).  Every
  value reaching the modelled operations is of the form `integer / 3`,
  `integer / total` or an integer, and all comparisons performed by the
  program on such values are far enough from the rounding granularity of
  IEEE arithmetic that exact rationals and machine floats decide them the
  same way.
* `static_cast<int>` on a nonnegative `double` truncates toward zero; it
  is modelled by `intOfRat` below.
* The worker threads of the dispatcher write to disjoint index ranges of
  a pre-allocated vector and share no other state that influences the
  result, so the batch conversion is modelled by running the workers
  sequentially in index order.  The progress side channel (an atomic
  counter plus a mutex-guarded printer) is modelled separately by
  `run_progress` acting on the sequence of reported fractions.
-/

set_option maxRecDepth 100000

/-- One pixel as stored in a `cv::Vec3b`: three 8-bit channels in storage
order `c0, c1, c2`.  OpenCV matrices store channels in BGR order; the
8-bit range (`≤ 255`) appears as a hypothesis where a theorem needs it. -/
structure Vec3b where
  c0 : Nat
  c1 : Nat
  c2 : Nat
deriving DecidableEq, Repr

/-- `const std::string ASCII_CHARS = ".-:=+*%#@$";` -/
def ASCII_CHARS : String := ".-:=+*%#@$"

/-- C++ `static_cast<int>` applied to a `double` (here an exact rational):
truncation toward zero. -/
def intOfRat (q : ℚ) : ℤ := q.num.tdiv (q.den : ℤ)

/-- `char pixel_to_ascii(double pixel)`:
`ASCII_CHARS[static_cast<int>(pixel * ASCII_CHARS.size() / 256)]`.
`std::string::operator[]` performs no bounds check; out-of-range access is
modelled by the default character `'?'` (never reached on the valid
brightness range, as proved below). -/
def pixel_to_ascii (pixel : ℚ) : Char :=
  ASCII_CHARS.data.getD (intOfRat (pixel * (ASCII_CHARS.length : ℚ) / 256)).toNat '?'

/-- The index computed inside `pixel_to_ascii`. -/
def glyph_index (pixel : ℚ) : ℤ := intOfRat (pixel * (ASCII_CHARS.length : ℚ) / 256)

/-- `std::string apply_color_to_ascii(const cv::Vec3b &pixel)`:
`int r = pixel[2], g = pixel[1], b = pixel[0];` then
`"\033[38;2;" + to_string(r) + ";" + to_string(g) + ";" + to_string(b) + "m"
 + pixel_to_ascii((r + g + b) / 3.0)`. -/
def apply_color_to_ascii (pixel : Vec3b) : String :=
  let r := pixel.c2
  let g := pixel.c1
  let b := pixel.c0
  ("\x1b[38;2;" ++ Nat.repr r ++ ";" ++ Nat.repr g ++ ";" ++ Nat.repr b ++ "m").push
    (pixel_to_ascii (((r : ℚ) + (g : ℚ) + (b : ℚ)) / 3))

/-- A raw frame (`cv::Mat` of `Vec3b`): `frame.rows` rows, each a list of
`frame.cols` pixels, in row-major order. -/
abbrev RawFrame := List (List Vec3b)

/-- `std::string convert_frame_to_ascii(const cv::Mat &frame)`: an
`ostringstream` accumulates, rows top-to-bottom (`i`), columns
left-to-right (`j`), one `'\n'` after each row. -/
def convert_frame_to_ascii (frame : RawFrame) : String :=
  frame.foldl (fun acc row =>
    (row.foldl (fun acc2 p => acc2 ++ apply_color_to_ascii p) acc) ++ "\n") ""

/-- `void display_progress(float progress)`: returns without printing when
`progress - last_progress < 0.05f`, otherwise updates `last_progress` and
prints the bar.  The `static` local `last_progress` (initially `-1.0f`) is
passed explicitly; the result is (printed?, new `last_progress`). -/
def display_progress (last_progress : ℚ) (progress : ℚ) : Bool × ℚ :=
  if progress - last_progress < 1 / 20 then (false, last_progress)
  else (true, progress)

/-- `static_cast<int>(progress * 100)`, the integer percentage printed at
the end of the bar. -/
def progress_percent (progress : ℚ) : ℤ := intOfRat (progress * 100)

/-- One call of the progress tracker, threading the state of
`display_progress` and collecting the fractions actually printed. -/
def progress_step (st : List ℚ × ℚ) (p : ℚ) : List ℚ × ℚ :=
  let r := display_progress st.2 p
  (if r.1 then st.1 ++ [p] else st.1, r.2)

/-- The fractions printed by a sequence of `display_progress` calls,
starting from the initial state `last_progress = -1.0f`. -/
def run_progress (ps : List ℚ) : List ℚ × ℚ :=
  ps.foldl progress_step ([], -1)

/-- The fractions passed to `display_progress` over one batch of `total`
frames: `process_frames` increments `completed_frames` once per frame and
reports `completed / total`, so the values `1/total .. total/total`. -/
def batch_fractions (total : Nat) : List ℚ :=
  (List.range total).map (fun k => ((k : ℚ) + 1) / (total : ℚ))

/-- Loop body of
`void process_frames(int start, int end, frames, ascii_frames, total)`:
`for (int i = start; i < end; ++i) ascii_frames[i] = convert_frame_to_ascii(frames[i]);`
(the progress side effect is modelled separately by `run_progress`). -/
def process_frames (start_idx end_idx : Nat) (frames : List RawFrame)
    (ascii_frames : List String) : List String :=
  (List.range' start_idx (end_idx - start_idx)).foldl
    (fun acc i => acc.set i (convert_frame_to_ascii (frames.getD i []))) ascii_frames

/-- `int start = i * frames_per_thread;` with
`frames_per_thread = frames.size() / num_threads`. -/
def chunk_start (n num_threads i : Nat) : Nat := i * (n / num_threads)

/-- `int end = (i == num_threads - 1) ? frames.size() : (i + 1) * frames_per_thread;` -/
def chunk_end (n num_threads i : Nat) : Nat :=
  if i = num_threads - 1 then n else (i + 1) * (n / num_threads)

/-- The portion of the output already written after the first `k` of `w`
workers ran: all slots below worker `k-1`'s chunk end (used to state the
dispatcher invariant). -/
def worker_bound (n w k : Nat) : Nat := if k = w then n else k * (n / w)

/-- The preload branch of `main`: `ascii_frames` pre-sized to
`frames.size()`, one worker per `i < num_threads` running
`process_frames` on its chunk.  Workers write disjoint ranges, so they
are modelled sequentially. -/
def convert_batch (frames : List RawFrame) (num_threads : Nat) : List String :=
  let n := frames.length
  (List.range num_threads).foldl
    (fun ascii_frames i =>
      process_frames (chunk_start n num_threads i) (chunk_end n num_threads i)
        frames ascii_frames)
    (List.replicate n "")

/-- `convert_batch` instrumented with the number of `std::async` launches:
the loop body of `main` calls `std::async` once per iteration,
unconditionally. -/
def convert_batch_spawns (frames : List RawFrame) (num_threads : Nat) :
    List String × Nat :=
  let n := frames.length
  (List.range num_threads).foldl
    (fun st i =>
      (process_frames (chunk_start n num_threads i) (chunk_end n num_threads i)
        frames st.1, st.2 + 1))
    (List.replicate n "", 0)

/-- Modelled from the spec (§4.2): the decimal digits of a channel value,
most significant first, written independently of `Nat.repr` (fuel-driven
long division). -/
def specDigitsAux : Nat → Nat → List Char
  | 0, _ => []
  | fuel + 1, n =>
      if n < 10 then [Nat.digitChar n]
      else specDigitsAux fuel (n / 10) ++ [Nat.digitChar (n % 10)]

/-- Modelled from the spec: "`{r}`,`{g}`,`{b}` are decimal, no leading
zeros, no padding". -/
def specDigits (n : Nat) : List Char := specDigitsAux (n + 1) n

/-- Modelled from the spec: the exact wire format
`ESC[38;2;{r};{g};{b}m{glyph}` with `ESC = 0x1B`. -/
def spec_color_encode (r g b : Nat) (glyph : Char) : String :=
  String.mk ('\x1b' :: '[' :: '3' :: '8' :: ';' :: '2' :: ';' ::
    (specDigits r ++ ';' :: specDigits g ++ ';' :: specDigits b ++ ['m', glyph]))

/-- Modelled from the spec (§4.3): `H` newline-terminated lines, each the
left-to-right concatenation of the row's glyph-units. -/
def spec_convert (frame : RawFrame) : String :=
  String.join (frame.map fun row =>
    String.join (row.map apply_color_to_ascii) ++ "\n")

/-- A list of characters is a decimal numeral without leading zeros. -/
def decimal_no_leading_zeros (l : List Char) : Prop :=
  (∀ c ∈ l, '0' ≤ c ∧ c ≤ '9') ∧ l ≠ [] ∧ (l.head? ≠ some '0' ∨ l = ['0'])

instance (l : List Char) : Decidable (decimal_no_leading_zeros l) := by
  unfold decimal_no_leading_zeros; infer_instance

/-- All pixels of a frame are genuine 8-bit pixels. -/
def goodFrame (frame : RawFrame) : Prop :=
  ∀ row ∈ frame, ∀ p ∈ row, p.c0 ≤ 255 ∧ p.c1 ≤ 255 ∧ p.c2 ≤ 255

instance (frame : RawFrame) : Decidable (goodFrame frame) := by
  unfold goodFrame; infer_instance

/-! ### Arithmetic facts about the glyph mapper -/

lemma intOfRat_eq_floor (q : ℚ) (h : 0 ≤ q) : intOfRat q = ⌊q⌋ := by
  rw [Rat.floor_def, intOfRat,
    Int.tdiv_eq_ediv (Rat.num_nonneg.mpr h) (Int.natCast_nonneg _)]

lemma ascii_chars_length : ASCII_CHARS.length = 10 := rfl

lemma glyph_index_nonneg (q : ℚ) (h : 0 ≤ q) : 0 ≤ glyph_index q := by
  unfold glyph_index
  rw [intOfRat_eq_floor _ (by positivity)]
  exact Int.le_floor.mpr (by push_cast; positivity)

lemma glyph_index_le_nine (q : ℚ) (h0 : 0 ≤ q) (h255 : q ≤ 255) :
    glyph_index q ≤ 9 := by
  unfold glyph_index
  rw [intOfRat_eq_floor _ (by positivity)]
  have hlen : (ASCII_CHARS.length : ℚ) = 10 := by
    rw [ascii_chars_length]; norm_num
  have hlt : q * (ASCII_CHARS.length : ℚ) / 256 < ((10 : ℤ) : ℚ) := by
    rw [hlen, div_lt_iff₀ (by norm_num)]
    push_cast
    nlinarith
  have h10 := Int.floor_lt.mpr hlt
  omega

lemma glyph_index_mono (q₁ q₂ : ℚ) (h0 : 0 ≤ q₁) (h : q₁ ≤ q₂) :
    glyph_index q₁ ≤ glyph_index q₂ := by
  have h2 : 0 ≤ q₂ := h0.trans h
  unfold glyph_index
  rw [intOfRat_eq_floor _ (by positivity),
    intOfRat_eq_floor _ (by positivity)]
  apply Int.floor_le_floor
  have hlen : (0 : ℚ) ≤ (ASCII_CHARS.length : ℚ) := by positivity
  apply div_le_div_of_nonneg_right ?_ (by norm_num)
  exact mul_le_mul_of_nonneg_right h hlen

lemma pixel_to_ascii_eq_getD (q : ℚ) :
    pixel_to_ascii q = ASCII_CHARS.data.getD (glyph_index q).toNat '?' := rfl

lemma pixel_to_ascii_mem (q : ℚ) (h0 : 0 ≤ q) (h255 : q ≤ 255) :
    pixel_to_ascii q ∈ ASCII_CHARS.data := by
  have h9 : (glyph_index q).toNat ≤ 9 := Int.toNat_le.mpr (glyph_index_le_nine q h0 h255)
  have hlt : (glyph_index q).toNat < ASCII_CHARS.data.length := by
    have hlen : ASCII_CHARS.data.length = 10 := rfl
    omega
  rw [pixel_to_ascii_eq_getD, List.getD_eq_getElem?_getD, List.getElem?_eq_getElem hlt]
  exact List.getElem_mem hlt

lemma pixel_to_ascii_ne_newline (q : ℚ) : pixel_to_ascii q ≠ '\n' := by
  rw [pixel_to_ascii_eq_getD, List.getD_eq_getElem?_getD]
  cases h : ASCII_CHARS.data[(glyph_index q).toNat]? with
  | none => decide
  | some c =>
      have hc : c ∈ ASCII_CHARS.data := by
        have := List.getElem?_eq_some.mp h
        obtain ⟨hlt, rfl⟩ := this
        exact List.getElem_mem hlt
      have hall : ∀ x ∈ ASCII_CHARS.data, x ≠ '\n' := by decide
      simpa using hall c hc

/-- Claim C5: for every brightness `b` in `[0,255]` the glyph mapper
returns one of the ten fixed ramp characters of `".-:=+*%#@$"`; the
computed index never exceeds `K-1 = 9` (at the `b = 255` boundary it is
exactly `9`, the value an explicit clamp would produce), and the index is
monotonically non-decreasing in the brightness. -/
theorem glyph_mapper_in_range_and_monotone :
    (∀ q : ℚ, 0 ≤ q → q ≤ 255 →
        0 ≤ glyph_index q ∧ glyph_index q ≤ 9 ∧ pixel_to_ascii q ∈ ASCII_CHARS.data)
    ∧ (∀ q₁ q₂ : ℚ, 0 ≤ q₁ → q₁ ≤ q₂ → glyph_index q₁ ≤ glyph_index q₂)
    ∧ glyph_index 255 = 9 ∧ ASCII_CHARS.data.length = 10 := by
  refine ⟨fun q h0 h255 => ⟨glyph_index_nonneg q h0, glyph_index_le_nine q h0 h255,
      pixel_to_ascii_mem q h0 h255⟩,
    glyph_index_mono, ?_, rfl⟩
  with_unfolding_all decide

/-- Witness for C5 at the boundary brightness `255` and at the pair
`(0, 255)` for monotonicity. -/
theorem glyph_mapper_in_range_and_monotone_witness :
    (0 ≤ glyph_index 255 ∧ glyph_index 255 ≤ 9
      ∧ pixel_to_ascii 255 ∈ ASCII_CHARS.data)
    ∧ glyph_index 0 ≤ glyph_index 255 :=
  ⟨glyph_mapper_in_range_and_monotone.1 255 (by norm_num) (by norm_num),
   glyph_mapper_in_range_and_monotone.2.1 0 255 (by norm_num) (by norm_num)⟩

/-! ### The colour encoder -/

lemma repr_eq_specDigits : ∀ n : Nat, n < 256 → (Nat.repr n).data = specDigits n := by
  decide

lemma specDigits_no_leading_zeros :
    ∀ n : Nat, n < 256 → decimal_no_leading_zeros (specDigits n) := by
  decide

lemma repr_ne_newline : ∀ n : Nat, n < 256 → '\n' ∉ (Nat.repr n).data := by
  decide

/-- The encoder output, byte for byte: the wire format of the spec applied
to the channels as the code reads them (`r` from slot 2, `g` from slot 1,
`b` from slot 0), followed by the glyph for the real-valued mean. -/
lemma apply_color_spec (r g b : Nat) (hr : r < 256) (hg : g < 256) (hb : b < 256) :
    apply_color_to_ascii ⟨b, g, r⟩
      = spec_color_encode r g b
          (pixel_to_ascii (((r : ℚ) + (g : ℚ) + (b : ℚ)) / 3)) := by
  apply String.ext
  show ((("\x1b[38;2;" ++ Nat.repr r ++ ";" ++ Nat.repr g ++ ";" ++ Nat.repr b
      ++ "m").push (pixel_to_ascii (((r : ℚ) + (g : ℚ) + (b : ℚ)) / 3)))).data = _
  rw [String.data_push]
  simp only [String.data_append]
  rw [repr_eq_specDigits r hr, repr_eq_specDigits g hg, repr_eq_specDigits b hb]
  show ((((((['\x1b', '[', '3', '8', ';', '2', ';'] ++ specDigits r) ++ [';'])
      ++ specDigits g) ++ [';']) ++ specDigits b) ++ ['m']) ++ [_] = _
  simp [spec_color_encode, List.append_assoc]

/-- Claim C4: for every pixel with channel values `r`, `g`, `b` in
`[0,255]` (as the encoder reads them), the output is exactly the byte
sequence `ESC[38;2;{r};{g};{b}m` — channels in decimal with no leading
zeros and no padding — immediately followed by exactly one glyph
character, the one the glyph mapper selects for the real-valued mean
`(r+g+b)/3` (truncation happens only inside the mapper). -/
theorem color_encoder_wire_format (r g b : Nat)
    (hr : r ≤ 255) (hg : g ≤ 255) (hb : b ≤ 255) :
    apply_color_to_ascii ⟨b, g, r⟩
      = spec_color_encode r g b
          (pixel_to_ascii (((r : ℚ) + (g : ℚ) + (b : ℚ)) / 3))
    ∧ decimal_no_leading_zeros (specDigits r)
    ∧ decimal_no_leading_zeros (specDigits g)
    ∧ decimal_no_leading_zeros (specDigits b) :=
  ⟨apply_color_spec r g b (by omega) (by omega) (by omega),
   specDigits_no_leading_zeros r (by omega),
   specDigits_no_leading_zeros g (by omega),
   specDigits_no_leading_zeros b (by omega)⟩

/-- Witness for C4 at the pixel whose encoder channels are
`r = 255`, `g = 0`, `b = 17`. -/
theorem color_encoder_wire_format_witness :
    apply_color_to_ascii ⟨17, 0, 255⟩
      = spec_color_encode 255 0 17
          (pixel_to_ascii ((((255 : Nat) : ℚ) + ((0 : Nat) : ℚ) + ((17 : Nat) : ℚ)) / 3))
    ∧ decimal_no_leading_zeros (specDigits 255)
    ∧ decimal_no_leading_zeros (specDigits 0)
    ∧ decimal_no_leading_zeros (specDigits 17) :=
  color_encoder_wire_format 255 0 17 (by omega) (by omega) (by omega)

/-- Claim C10: the encoder emits the stored triple `(c0, c1, c2)` in
reverse order — `c2` as the `{r}` field, `c1` as `{g}`, `c0` as `{b}` —
i.e., it interprets the storage as BGR; the brightness mean used for
glyph selection is symmetric in the channels and thus unaffected. -/
theorem color_encoder_bgr_storage_order (p : Vec3b)
    (h0 : p.c0 ≤ 255) (h1 : p.c1 ≤ 255) (h2 : p.c2 ≤ 255) :
    apply_color_to_ascii p
      = spec_color_encode p.c2 p.c1 p.c0
          (pixel_to_ascii (((p.c0 : ℚ) + (p.c1 : ℚ) + (p.c2 : ℚ)) / 3))
    ∧ ((p.c0 : ℚ) + (p.c1 : ℚ) + (p.c2 : ℚ)) / 3
        = ((p.c2 : ℚ) + (p.c1 : ℚ) + (p.c0 : ℚ)) / 3 := by
  obtain ⟨c0, c1, c2⟩ := p
  simp only at h0 h1 h2 ⊢
  have harg : ((c0 : ℚ) + (c1 : ℚ) + (c2 : ℚ)) / 3
      = ((c2 : ℚ) + (c1 : ℚ) + (c0 : ℚ)) / 3 := by ring
  refine ⟨?_, harg⟩
  rw [harg]
  exact apply_color_spec c2 c1 c0 (by omega) (by omega) (by omega)

/-- Witness for C10 at the stored pixel `(10, 20, 30)`. -/
theorem color_encoder_bgr_storage_order_witness :
    apply_color_to_ascii ⟨10, 20, 30⟩
      = spec_color_encode 30 20 10
          (pixel_to_ascii ((((10 : Nat) : ℚ) + ((20 : Nat) : ℚ) + ((30 : Nat) : ℚ)) / 3))
    ∧ (((10 : Nat) : ℚ) + ((20 : Nat) : ℚ) + ((30 : Nat) : ℚ)) / 3
        = (((30 : Nat) : ℚ) + ((20 : Nat) : ℚ) + ((10 : Nat) : ℚ)) / 3 :=
  color_encoder_bgr_storage_order ⟨10, 20, 30⟩ (by decide) (by decide) (by decide)

/-! ### The frame converter -/

lemma row_foldl_data (row : List Vec3b) :
    ∀ acc : String,
      (row.foldl (fun acc2 p => acc2 ++ apply_color_to_ascii p) acc).data
        = acc.data ++ (row.map (fun p => (apply_color_to_ascii p).data)).flatten := by
  induction row with
  | nil => intro acc; simp
  | cons p row ih =>
      intro acc
      rw [List.foldl_cons, ih]
      simp [String.data_append, List.append_assoc]

lemma frame_foldl_data (frame : RawFrame) :
    ∀ acc : String,
      (frame.foldl (fun acc row =>
          (row.foldl (fun acc2 p => acc2 ++ apply_color_to_ascii p) acc) ++ "\n") acc).data
        = acc.data
          ++ (frame.map (fun row =>
                (row.map (fun p => (apply_color_to_ascii p).data)).flatten
                  ++ ['\n'])).flatten := by
  induction frame with
  | nil => intro acc; simp
  | cons row frame ih =>
      intro acc
      rw [List.foldl_cons, ih, String.data_append, row_foldl_data]
      simp [List.append_assoc]

/-- The characters the converter produces: per row the concatenated
glyph-units followed by a newline, rows in order. -/
lemma convert_frame_data (frame : RawFrame) :
    (convert_frame_to_ascii frame).data
      = (frame.map (fun row =>
            (row.map (fun p => (apply_color_to_ascii p).data)).flatten
              ++ ['\n'])).flatten := by
  unfold convert_frame_to_ascii
  rw [frame_foldl_data]
  rfl

lemma join_data (l : List String) : (String.join l).data = (l.map String.data).flatten := by
  have h : ∀ init : String,
      (l.foldl (fun r s => r ++ s) init).data = init.data ++ (l.map String.data).flatten := by
    induction l with
    | nil => intro init; simp
    | cons s l ih =>
        intro init
        rw [List.foldl_cons, ih]
        simp [String.data_append, List.append_assoc]
  show (l.foldl (fun r s => r ++ s) "").data = _
  rw [h]
  rfl

lemma spec_convert_data (frame : RawFrame) :
    (spec_convert frame).data
      = (frame.map (fun row =>
            (row.map (fun p => (apply_color_to_ascii p).data)).flatten
              ++ ['\n'])).flatten := by
  unfold spec_convert
  rw [join_data, List.map_map]
  congr 1
  apply List.map_congr_left
  intro row _
  show (String.join (row.map apply_color_to_ascii) ++ "\n").data = _
  rw [String.data_append, join_data, List.map_map]
  rfl

/-- The accumulator loop of the converter computes exactly the structure
the spec describes. -/
lemma convert_eq_spec (frame : RawFrame) :
    convert_frame_to_ascii frame = spec_convert frame := by
  apply String.ext
  rw [convert_frame_data, spec_convert_data]

lemma newline_not_mem_apply_color (p : Vec3b)
    (h0 : p.c0 ≤ 255) (h1 : p.c1 ≤ 255) (h2 : p.c2 ≤ 255) :
    '\n' ∉ (apply_color_to_ascii p).data := by
  obtain ⟨c0, c1, c2⟩ := p
  simp only at h0 h1 h2
  intro hmem
  show False
  unfold apply_color_to_ascii at hmem
  simp only [String.data_push, String.data_append, List.mem_append,
    List.mem_singleton] at hmem
  rcases hmem with ((((((h | h) | h) | h) | h) | h) | h) | h
  · exact absurd h (by decide)
  · exact repr_ne_newline c2 (by omega) h
  · exact absurd h (by decide)
  · exact repr_ne_newline c1 (by omega) h
  · exact absurd h (by decide)
  · exact repr_ne_newline c0 (by omega) h
  · exact absurd h (by decide)
  · exact pixel_to_ascii_ne_newline _ h.symm

lemma newline_count_row (row : List Vec3b)
    (hrow : ∀ p ∈ row, p.c0 ≤ 255 ∧ p.c1 ≤ 255 ∧ p.c2 ≤ 255) :
    ((row.map (fun p => (apply_color_to_ascii p).data)).flatten).count '\n' = 0 := by
  rw [List.count_flatten, List.map_map]
  apply List.sum_eq_zero
  intro x hx
  obtain ⟨p, hp, rfl⟩ := List.mem_map.mp hx
  obtain ⟨hc0, hc1, hc2⟩ := hrow p hp
  simpa [Function.comp] using
    List.count_eq_zero.mpr (newline_not_mem_apply_color p hc0 hc1 hc2)

lemma sum_map_one {α : Type} (l : List α) :
    (l.map (fun _ => (1 : Nat))).sum = l.length := by
  induction l with
  | nil => rfl
  | cons a l ih => simp [ih]; omega

lemma newline_count_convert (frame : RawFrame) (hframe : goodFrame frame) :
    ((convert_frame_to_ascii frame).data).count '\n' = frame.length := by
  rw [convert_frame_data, List.count_flatten, List.map_map]
  have hmap : List.map ((List.count '\n') ∘ fun row =>
        (row.map (fun p => (apply_color_to_ascii p).data)).flatten ++ ['\n']) frame
      = List.map (fun _ => 1) frame := by
    apply List.map_congr_left
    intro row hrow
    show ((row.map (fun p => (apply_color_to_ascii p).data)).flatten ++ ['\n']).count '\n' = 1
    rw [List.count_append, newline_count_row row (hframe row hrow)]
    decide
  rw [hmap]
  exact sum_map_one frame

/-- Claim C3: the converter emits rows top-to-bottom, columns
left-to-right, one newline after each row: for every frame the output is
exactly the spec's structure (`H` newline-terminated lines, line `i` the
concatenation of row `i`'s glyph-units), the newline count equals the
height, each row contributes exactly `W` glyph-units, and the 2×2
all-black frame converts to two lines of `ESC[38;2;0;0;0m.` twice. -/
theorem frame_converter_rows_and_columns :
    (∀ frame : RawFrame, convert_frame_to_ascii frame = spec_convert frame)
    ∧ (∀ frame : RawFrame, goodFrame frame →
        ((convert_frame_to_ascii frame).data).count '\n' = frame.length)
    ∧ (∀ frame : RawFrame, ∀ row ∈ frame,
        (row.map apply_color_to_ascii).length = row.length)
    ∧ convert_frame_to_ascii [[⟨0, 0, 0⟩, ⟨0, 0, 0⟩], [⟨0, 0, 0⟩, ⟨0, 0, 0⟩]]
        = "\x1b[38;2;0;0;0m.\x1b[38;2;0;0;0m.\n\x1b[38;2;0;0;0m.\x1b[38;2;0;0;0m.\n" := by
  refine ⟨convert_eq_spec, newline_count_convert,
    fun frame row _ => List.length_map row _, ?_⟩
  with_unfolding_all decide

/-- Witness for C3 on a 1×1 frame: one newline for one row. -/
theorem frame_converter_rows_and_columns_witness :
    ((convert_frame_to_ascii [[⟨0, 0, 0⟩]]).data).count '\n'
      = ([[(⟨0, 0, 0⟩ : Vec3b)]] : RawFrame).length :=
  frame_converter_rows_and_columns.2.1 [[⟨0, 0, 0⟩]] (by decide)

/-- Counterexample to claim C9: a frame with zero height converts to the
empty string, and a 2×0 frame converts to two bare newlines — the
converter silently produces these degenerate outputs instead of rejecting
or skipping such frames (its return type has no error channel at all). -/
theorem zero_size_frame_silent_output :
    convert_frame_to_ascii ([] : RawFrame) = ""
    ∧ convert_frame_to_ascii ([[], []] : RawFrame) = "\n\n" := by
  exact ⟨rfl, rfl⟩

/-- Claim C9 as amended: on frames with zero width (or zero height) the
converter is deterministic — it returns exactly one `'\n'` per row and
the empty string for a zero-height frame — but it does not reject or skip
them; there is no error path. -/
theorem zero_width_frames_not_rejected (frame : RawFrame)
    (h : ∀ row ∈ frame, row = []) :
    convert_frame_to_ascii frame = String.mk (List.replicate frame.length '\n') := by
  have key : ∀ fr : RawFrame, (∀ row ∈ fr, row = []) →
      (fr.map (fun row =>
          (row.map (fun p => (apply_color_to_ascii p).data)).flatten ++ ['\n'])).flatten
        = List.replicate fr.length '\n' := by
    intro fr
    induction fr with
    | nil => intro _; rfl
    | cons row fr ih =>
        intro h'
        have hrow : row = [] := h' row (List.mem_cons_self _ _)
        subst hrow
        simp [List.replicate_succ, ih (fun r hr => h' r (List.mem_cons_of_mem _ hr))]
  apply String.ext
  rw [convert_frame_data, key frame h]

/-- Witness for the amended C9 at the 2×0 frame. -/
theorem zero_width_frames_not_rejected_witness :
    convert_frame_to_ascii ([[], []] : RawFrame)
      = String.mk (List.replicate ([[], []] : RawFrame).length '\n') :=
  zero_width_frames_not_rejected [[], []] (by decide)

/-! ### The progress tracker -/

lemma display_progress_fst (last p : ℚ) :
    (display_progress last p).1 = true ↔ 1 / 20 ≤ p - last := by
  unfold display_progress
  split_ifs with h
  · simpa using not_le.mpr h
  · simpa using not_lt.mp h

lemma progress_step_skip (acc : List ℚ) (last p : ℚ) (h : p - last < 1 / 20) :
    progress_step (acc, last) p = (acc, last) := by
  show (if (display_progress last p).1 then acc ++ [p] else acc,
    (display_progress last p).2) = (acc, last)
  unfold display_progress
  rw [if_pos h]
  rfl

lemma progress_step_emit (acc : List ℚ) (last p : ℚ) (h : ¬ p - last < 1 / 20) :
    progress_step (acc, last) p = (acc ++ [p], p) := by
  show (if (display_progress last p).1 then acc ++ [p] else acc,
    (display_progress last p).2) = (acc ++ [p], p)
  unfold display_progress
  rw [if_neg h]
  rfl

/-- Invariant of the tracker fold: the emitted fractions form a chain in
which each entry exceeds its predecessor by at least the threshold, and
the stored `last_progress` dominates the last emitted fraction. -/
lemma run_progress_invariant (ps : List ℚ) :
    ∀ (acc : List ℚ) (last : ℚ),
      List.Chain' (fun a b => a + 1 / 20 ≤ b) acc →
      (∀ x ∈ acc.getLast?, x ≤ last) →
      List.Chain' (fun a b => a + 1 / 20 ≤ b) (ps.foldl progress_step (acc, last)).1
      ∧ ∀ x ∈ (ps.foldl progress_step (acc, last)).1.getLast?,
          x ≤ (ps.foldl progress_step (acc, last)).2 := by
  induction ps with
  | nil => intro acc last h1 h2; exact ⟨h1, h2⟩
  | cons p ps ih =>
      intro acc last h1 h2
      rw [List.foldl_cons]
      by_cases h : p - last < 1 / 20
      · rw [progress_step_skip acc last p h]
        exact ih acc last h1 h2
      · rw [progress_step_emit acc last p h]
        apply ih
        · rw [List.chain'_append]
          refine ⟨h1, List.chain'_singleton _, ?_⟩
          intro x hx y hy
          simp only [List.head?_cons, Option.mem_def, Option.some.injEq] at hy
          subst hy
          have hxl := h2 x hx
          have hp : last + 1 / 20 ≤ p := by linarith [not_lt.mp h]
          linarith
        · intro x hx
          rw [List.getLast?_concat] at hx
          simp only [Option.mem_def, Option.some.injEq] at hx
          subst hx
          exact le_refl _

/-- Claim C6 as amended: within one batch the tracker never reports a
fraction lower than a previously reported one — successive reports in
fact grow by at least the 0.05 threshold — and a report is emitted
exactly when the fraction exceeds the last reported one by at least 0.05.
There is no special case for the final completion: `display_progress`
applies the same threshold to `completed == total`, so the 100% report
may be skipped (see the accompanying counterexample); when the final
fraction `1.0` is emitted it prints exactly `100 %`. -/
theorem progress_reports_strictly_increase :
    (∀ ps : List ℚ, List.Chain' (fun a b => a + 1 / 20 ≤ b) (run_progress ps).1)
    ∧ (∀ last p : ℚ, (display_progress last p).1 = true ↔ 1 / 20 ≤ p - last)
    ∧ progress_percent 1 = 100 := by
  refine ⟨fun ps => (run_progress_invariant ps [] (-1) (by simp) (by simp)).1,
    display_progress_fst, ?_⟩
  with_unfolding_all decide

/-- Counterexample to claim C6 as stated: for a batch of 30 frames the
final call (`completed == total`, fraction `1`) falls below the 0.05
threshold above the previously reported `29/30`, so the tracker never
emits the 100% report. -/
theorem progress_final_completion_not_emitted :
    (batch_fractions 30).getLast? = some 1
    ∧ (1 : ℚ) ∉ (run_progress (batch_fractions 30)).1
    ∧ (run_progress (batch_fractions 30)).1.getLast? = some (29 / 30 : ℚ) := by
  with_unfolding_all decide

/-! ### The parallel dispatcher -/

lemma setfold_length (frames : List RawFrame) (idxs : List Nat) :
    ∀ l : List String,
      (idxs.foldl (fun acc i =>
          acc.set i (convert_frame_to_ascii (frames.getD i []))) l).length = l.length := by
  induction idxs with
  | nil => intro l; rfl
  | cons i idxs ih => intro l; rw [List.foldl_cons, ih, List.length_set]

/-- Every slot after a sequence of writes `ascii_frames[i] := convert(frames[i])`:
a slot whose index was written holds the conversion of its own frame, any
other slot is untouched. -/
lemma setfold_getElem? (frames : List RawFrame) (idxs : List Nat) :
    ∀ (l : List String) (j : Nat),
      (idxs.foldl (fun acc i =>
          acc.set i (convert_frame_to_ascii (frames.getD i []))) l)[j]?
        = if j ∈ idxs ∧ j < l.length
            then some (convert_frame_to_ascii (frames.getD j []))
            else l[j]? := by
  induction idxs with
  | nil => intro l j; simp
  | cons i idxs ih =>
      intro l j
      rw [List.foldl_cons, ih, List.length_set, List.getElem?_set]
      by_cases hj : j ∈ idxs
      · by_cases hl : j < l.length
        · have hc1 : j ∈ idxs ∧ j < l.length := ⟨hj, hl⟩
          have hc2 : j ∈ i :: idxs ∧ j < l.length := ⟨List.mem_cons_of_mem i hj, hl⟩
          simp only [if_pos hc1, if_pos hc2]
        · have hc1 : ¬ (j ∈ idxs ∧ j < l.length) := fun h => hl h.2
          have hc2 : ¬ (j ∈ i :: idxs ∧ j < l.length) := fun h => hl h.2
          simp only [if_neg hc1, if_neg hc2]
          by_cases hij : i = j
          · subst hij
            simp only [if_pos rfl, if_neg hl]
            exact (List.getElem?_eq_none (le_of_not_lt hl)).symm
          · simp only [if_neg hij]
      · by_cases hij : i = j
        · subst hij
          have hc1 : ¬ (i ∈ idxs ∧ i < l.length) := fun h => hj h.1
          by_cases hl : i < l.length
          · have hc2 : i ∈ i :: idxs ∧ i < l.length := ⟨List.mem_cons_self i idxs, hl⟩
            simp only [if_neg hc1, if_pos rfl, if_pos hl, if_pos hc2]
            simp
          · have hc2 : ¬ (i ∈ i :: idxs ∧ i < l.length) := fun h => hl h.2
            simp only [if_neg hc1, if_pos rfl, if_neg hl, if_neg hc2]
            exact (List.getElem?_eq_none (le_of_not_lt hl)).symm
        · have hc1 : ¬ (j ∈ idxs ∧ j < l.length) := fun h => hj h.1
          have hc2 : ¬ (j ∈ i :: idxs ∧ j < l.length) :=
            fun h => (List.mem_cons.mp h.1).elim (fun he => hij he.symm) hj
          simp only [if_neg hc1, if_neg hij, if_neg hc2]

lemma process_frames_length (s e : Nat) (frames : List RawFrame) (l : List String) :
    (process_frames s e frames l).length = l.length := by
  unfold process_frames
  exact setfold_length frames _ l

lemma process_frames_getElem? (s e : Nat) (frames : List RawFrame) (l : List String)
    (j : Nat) :
    (process_frames s e frames l)[j]?
      = if s ≤ j ∧ j < e ∧ j < l.length
          then some (convert_frame_to_ascii (frames.getD j []))
          else l[j]? := by
  unfold process_frames
  rw [setfold_getElem?]
  have hmem : (j ∈ List.range' s (e - s)) ↔ (s ≤ j ∧ j < e) := by
    rw [List.mem_range'_1]; omega
  simp only [hmem, and_assoc]

lemma convert_batch_def (frames : List RawFrame) (w : Nat) :
    convert_batch frames w
      = (List.range w).foldl
          (fun ascii_frames i =>
            process_frames (chunk_start frames.length w i) (chunk_end frames.length w i)
              frames ascii_frames)
          (List.replicate frames.length "") := rfl

lemma convert_batch_fold_length (frames : List RawFrame) (w k : Nat) :
    ((List.range k).foldl
        (fun ascii_frames i =>
          process_frames (chunk_start frames.length w i) (chunk_end frames.length w i)
            frames ascii_frames)
        (List.replicate frames.length "")).length = frames.length := by
  induction k with
  | zero => simp
  | succ k ih =>
      rw [List.range_succ, List.foldl_append, List.foldl_cons, List.foldl_nil,
        process_frames_length, ih]

/-- After the first `k` workers ran, exactly the slots below worker
`k-1`'s chunk end hold converted frames; the rest still hold `""`. -/
lemma convert_batch_fold_getElem? (frames : List RawFrame) (w : Nat) (hw : 0 < w) :
    ∀ k, k ≤ w → ∀ j : Nat,
      ((List.range k).foldl
          (fun ascii_frames i =>
            process_frames (chunk_start frames.length w i) (chunk_end frames.length w i)
              frames ascii_frames)
          (List.replicate frames.length ""))[j]?
        = if j < worker_bound frames.length w k ∧ j < frames.length
            then some (convert_frame_to_ascii (frames.getD j []))
            else (List.replicate frames.length "")[j]? := by
  intro k
  induction k with
  | zero =>
      intro _ j
      have h0 : worker_bound frames.length w 0 = 0 := by
        unfold worker_bound
        rw [if_neg (by omega : ¬ (0 = w))]
        simp
      simp [h0]
  | succ k ih =>
      intro hk j
      rw [List.range_succ, List.foldl_append, List.foldl_cons, List.foldl_nil,
        process_frames_getElem?, convert_batch_fold_length, ih (by omega) j]
      have hwb_k : worker_bound frames.length w k = k * (frames.length / w) := by
        unfold worker_bound
        rw [if_neg (by omega : ¬ (k = w))]
      by_cases hkl : k = w - 1
      · have hk1 : k + 1 = w := by omega
        have hwb : worker_bound frames.length w (k + 1) = frames.length := by
          unfold worker_bound
          rw [if_pos hk1]
        have hce : chunk_end frames.length w k = frames.length := by
          unfold chunk_end
          rw [if_pos hkl]
        have hcs : chunk_start frames.length w k = k * (frames.length / w) := rfl
        simp only [hwb, hwb_k, hce, hcs]
        set A := k * (frames.length / w) with hA
        clear_value A
        split_ifs <;> first | rfl | omega
      · have hk1 : ¬ (k + 1 = w) := by omega
        have hwb : worker_bound frames.length w (k + 1)
            = (k + 1) * (frames.length / w) := by
          unfold worker_bound
          rw [if_neg hk1]
        have hce : chunk_end frames.length w k = (k + 1) * (frames.length / w) := by
          unfold chunk_end
          rw [if_neg hkl]
        have hcs : chunk_start frames.length w k = k * (frames.length / w) := rfl
        simp only [hwb, hwb_k, hce, hcs]
        have hstep : (k + 1) * (frames.length / w)
            = k * (frames.length / w) + frames.length / w := Nat.succ_mul k _
        set c2 := frames.length / w with hc2
        set A := k * c2 with hA
        set B := (k + 1) * c2 with hB
        clear_value c2 A B
        split_ifs <;> first | rfl | omega

/-- The dispatcher writes every slot exactly once: the assembled output is
the in-order conversion of the whole batch. -/
lemma convert_batch_map (frames : List RawFrame) (w : Nat) (hw : 0 < w) :
    convert_batch frames w = frames.map convert_frame_to_ascii := by
  apply List.ext_getElem?
  intro j
  have hwb : worker_bound frames.length w w = frames.length := by
    unfold worker_bound
    rw [if_pos rfl]
  rw [convert_batch_def, convert_batch_fold_getElem? frames w hw w le_rfl j, hwb]
  by_cases hj : j < frames.length
  · rw [if_pos ⟨hj, hj⟩, List.getElem?_map, List.getElem?_eq_getElem hj]
    simp [List.getD_eq_getElem?_getD, List.getElem?_eq_getElem hj]
  · rw [if_neg (by omega), List.getElem?_replicate, if_neg hj]
    symm
    apply List.getElem?_eq_none
    rw [List.length_map]
    omega

/-- Claim C1: for every batch of `N` frames and every worker count
`W > 0`, the dispatcher returns a sequence of length `N` whose `i`-th
element is the conversion of the `i`-th input frame — the contiguous
partitioning neither reorders nor drops frames, also when `N < W`. -/
theorem convert_batch_preserves_batch (frames : List RawFrame) (num_threads : Nat)
    (hw : 0 < num_threads) :
    convert_batch frames num_threads = frames.map convert_frame_to_ascii
    ∧ (convert_batch frames num_threads).length = frames.length
    ∧ ∀ j : Nat, j < frames.length →
        (convert_batch frames num_threads)[j]?
          = some (convert_frame_to_ascii (frames.getD j [])) := by
  have h := convert_batch_map frames num_threads hw
  refine ⟨h, by rw [h, List.length_map], fun j hj => ?_⟩
  rw [h, List.getElem?_map, List.getElem?_eq_getElem hj]
  simp [List.getD_eq_getElem?_getD, List.getElem?_eq_getElem hj]

/-- Witness for C1 with `N = 2 < W = 3`: a black frame followed by a
white frame, converted unchanged and in order. -/
theorem convert_batch_preserves_batch_witness :
    convert_batch [[[⟨0, 0, 0⟩]], [[⟨255, 255, 255⟩]]] 3
      = ([[[⟨0, 0, 0⟩]], [[⟨255, 255, 255⟩]]] : List RawFrame).map convert_frame_to_ascii
    ∧ (convert_batch [[[⟨0, 0, 0⟩]], [[⟨255, 255, 255⟩]]] 3).length
        = ([[[⟨0, 0, 0⟩]], [[⟨255, 255, 255⟩]]] : List RawFrame).length
    ∧ ∀ j : Nat, j < ([[[⟨0, 0, 0⟩]], [[⟨255, 255, 255⟩]]] : List RawFrame).length →
        (convert_batch [[[⟨0, 0, 0⟩]], [[⟨255, 255, 255⟩]]] 3)[j]?
          = some (convert_frame_to_ascii
              (([[[⟨0, 0, 0⟩]], [[⟨255, 255, 255⟩]]] : List RawFrame).getD j [])) :=
  convert_batch_preserves_batch [[[⟨0, 0, 0⟩]], [[⟨255, 255, 255⟩]]] 3 (by omega)

/-- Claim C2: the dispatcher cuts the batch into contiguous chunks of
`chunk_size = N / W` frames: worker `i < W-1` starts at `i * chunk_size`
and gets exactly `chunk_size` indices, the last worker gets the remaining
`N - (W-1) * chunk_size`; for `N = 5`, `W = 3` the chunks are `[0]`,
`[1]` and `[2, 3, 4]` (workers 0 and 1 one frame each, worker 2 three). -/
theorem dispatcher_chunk_policy :
    (∀ n w i : Nat, 0 < w → i + 1 < w →
        chunk_start n w i = i * (n / w)
        ∧ chunk_end n w i - chunk_start n w i = n / w)
    ∧ (∀ n w : Nat, 0 < w →
        chunk_start n w (w - 1) = (w - 1) * (n / w)
        ∧ chunk_end n w (w - 1) = n
        ∧ chunk_end n w (w - 1) - chunk_start n w (w - 1) = n - (w - 1) * (n / w))
    ∧ (List.range' (chunk_start 5 3 0) (chunk_end 5 3 0 - chunk_start 5 3 0) = [0]
       ∧ List.range' (chunk_start 5 3 1) (chunk_end 5 3 1 - chunk_start 5 3 1) = [1]
       ∧ List.range' (chunk_start 5 3 2) (chunk_end 5 3 2 - chunk_start 5 3 2)
           = [2, 3, 4]) := by
  refine ⟨?_, ?_, by decide⟩
  · intro n w i hw hi
    have hne : ¬ (i = w - 1) := by omega
    refine ⟨rfl, ?_⟩
    have hce : chunk_end n w i = (i + 1) * (n / w) := by
      unfold chunk_end
      rw [if_neg hne]
    have hcs : chunk_start n w i = i * (n / w) := rfl
    rw [hce, hcs, Nat.succ_mul]
    set q := n / w with hq
    clear_value q
    set A2 := i * q with hA2
    clear_value A2
    omega
  · intro n w hw
    have hce : chunk_end n w (w - 1) = n := by
      unfold chunk_end
      rw [if_pos rfl]
    refine ⟨rfl, hce, ?_⟩
    rw [hce]
    rfl

/-- Witness for C2 at `N = 5`, `W = 3`. -/
theorem dispatcher_chunk_policy_witness :
    (chunk_start 5 3 0 = 0 * (5 / 3) ∧ chunk_end 5 3 0 - chunk_start 5 3 0 = 5 / 3)
    ∧ (chunk_start 5 3 (3 - 1) = (3 - 1) * (5 / 3)
       ∧ chunk_end 5 3 (3 - 1) = 5
       ∧ chunk_end 5 3 (3 - 1) - chunk_start 5 3 (3 - 1) = 5 - (3 - 1) * (5 / 3)) :=
  ⟨dispatcher_chunk_policy.1 5 3 0 (by omega) (by omega),
   dispatcher_chunk_policy.2.1 5 3 (by omega)⟩

lemma convert_batch_spawns_def (frames : List RawFrame) (w : Nat) :
    convert_batch_spawns frames w
      = (List.range w).foldl
          (fun st i =>
            (process_frames (chunk_start frames.length w i) (chunk_end frames.length w i)
              frames st.1, st.2 + 1))
          (List.replicate frames.length "", 0) := rfl

lemma foldl_pair_count {α β : Type} (g : β → α → β) (l : List α) :
    ∀ (acc : β) (k : Nat),
      l.foldl (fun st i => (g st.1 i, st.2 + 1)) (acc, k)
        = (l.foldl g acc, k + l.length) := by
  induction l with
  | nil => intro acc k; simp
  | cons i l ih =>
      intro acc k
      rw [List.foldl_cons, List.foldl_cons, ih]
      rw [show k + 1 + l.length = k + (l.length + 1) from by omega]
      rfl

/-- The instrumented dispatcher: same output, and exactly one `std::async`
launch per worker index, whatever the batch size. -/
lemma convert_batch_spawns_eq (frames : List RawFrame) (w : Nat) :
    convert_batch_spawns frames w = (convert_batch frames w, w) := by
  rw [convert_batch_spawns_def]
  refine Eq.trans (foldl_pair_count (fun acc i =>
      process_frames (chunk_start frames.length w i) (chunk_end frames.length w i)
        frames acc) (List.range w) (List.replicate frames.length "") 0) ?_
  rw [← convert_batch_def]
  simp

/-- Claim C7 (the bug, evaluated): with a worker count of zero — the
value `std::thread::hardware_concurrency()` may legitimately return —
`main` computes `frames.size() / num_threads`, an integer division by
zero, and spawns no worker at all: under the total-division semantics of
the model the batch comes back with every slot still holding the initial
`""`, not the converted frame.  No clamp to a minimum of one worker
exists in the code. -/
theorem worker_count_zero_converts_nothing :
    convert_batch [[[⟨0, 0, 0⟩]]] 0 = [""]
    ∧ convert_frame_to_ascii [[⟨0, 0, 0⟩]] ≠ "" := by
  constructor
  · rfl
  · with_unfolding_all decide

/-- Counterexample to claim C8 as stated: for an empty batch the loop in
`main` still launches one `std::async` task per worker index — four
workers are spawned for `N = 0`, `W = 4`, not zero. -/
theorem empty_batch_spawns_workers :
    (convert_batch_spawns ([] : List RawFrame) 4).2 = 4
    ∧ (convert_batch_spawns ([] : List RawFrame) 4).2 ≠ 0 := by
  constructor
  · rfl
  · decide

/-- Claim C8 as amended: for `N = 0` the dispatcher returns the empty
sequence, but it still spawns all `W` workers (each over an empty index
range); the instrumented model agrees with the plain one and always
spawns exactly `W` tasks; and for every worker the assigned range is
well-formed and in bounds (`start ≤ end ≤ N`), also when `N < W`. -/
theorem degenerate_batches_guarded :
    (∀ w : Nat, 0 < w →
        convert_batch ([] : List RawFrame) w = []
        ∧ (convert_batch_spawns ([] : List RawFrame) w).2 = w)
    ∧ (∀ (frames : List RawFrame) (w : Nat),
        convert_batch_spawns frames w = (convert_batch frames w, w))
    ∧ (∀ n w i : Nat, 0 < w → i < w →
        chunk_start n w i ≤ chunk_end n w i ∧ chunk_end n w i ≤ n) := by
  refine ⟨fun w hw => ⟨?_, ?_⟩, convert_batch_spawns_eq, ?_⟩
  · rw [convert_batch_map [] w hw]
    rfl
  · rw [convert_batch_spawns_eq]
  · intro n w i hw hi
    have hdm : n / w * w ≤ n := Nat.div_mul_le_self n w
    by_cases hiw : i = w - 1
    · have hce : chunk_end n w i = n := by
        unfold chunk_end
        rw [if_pos hiw]
      have hcs : chunk_start n w i = i * (n / w) := rfl
      constructor
      · rw [hce, hcs]
        calc i * (n / w) ≤ w * (n / w) := Nat.mul_le_mul_right _ (by omega)
          _ = n / w * w := Nat.mul_comm _ _
          _ ≤ n := hdm
      · rw [hce]
    · have hce : chunk_end n w i = (i + 1) * (n / w) := by
        unfold chunk_end
        rw [if_neg hiw]
      have hcs : chunk_start n w i = i * (n / w) := rfl
      constructor
      · rw [hce, hcs]
        exact Nat.mul_le_mul_right _ (by omega)
      · rw [hce]
        calc (i + 1) * (n / w) ≤ w * (n / w) := Nat.mul_le_mul_right _ (by omega)
          _ = n / w * w := Nat.mul_comm _ _
          _ ≤ n := hdm

/-- Witness for the amended C8 at `W = 1` and the degenerate chunk of an
empty batch. -/
theorem degenerate_batches_guarded_witness :
    (convert_batch ([] : List RawFrame) 1 = []
     ∧ (convert_batch_spawns ([] : List RawFrame) 1).2 = 1)
    ∧ (chunk_start 0 1 0 ≤ chunk_end 0 1 0 ∧ chunk_end 0 1 0 ≤ 0) :=
  ⟨degenerate_batches_guarded.1 1 (by omega),
   degenerate_batches_guarded.2.2 0 1 0 (by omega) (by omega)⟩
